import Mathlib

set_option maxRecDepth 100000

/-!
Verification of `pdf_mindmap_generator.py` (class `PDFChapterExtractor`):
a shallow embedding of its document analysis, header classification, text
cleaning and chapter extraction, together with theorems about the claims
of the specification.

Strings are modelled as Lean `String`/`List Char`.  Python's Unicode
character classes (`str.strip`, `\s`, `\d`, `str.lower`, `str.isupper`)
are modelled on the ASCII range plus the Cyrillic alphabet, which covers
every character the program's own patterns and section markers mention.
-/

namespace KitapAi

/-- Whitespace characters of Python's `str.strip()` / regex `\s`
(ASCII range; the program's own markers use no exotic spaces). -/
def isPySpace (c : Char) : Bool :=
  c = ' ' || c = '\t' || c = '\n' || c = '\r' || c = '\x0b' || c = '\x0c'

/-- Python `str.strip()`: drop leading and trailing whitespace. -/
def stripChars (s : List Char) : List Char :=
  ((s.dropWhile isPySpace).reverse.dropWhile isPySpace).reverse

/-- Python `str.lower()` on one character, for ASCII letters and the
Cyrillic alphabet (`А`..`Я` and `Ё`), the only cased letters the
program's section markers and patterns involve. -/
def pyLower (c : Char) : Char :=
  if 'A' ≤ c && c ≤ 'Z' then Char.ofNat (c.toNat + 32)
  else if 'А' ≤ c && c ≤ 'Я' then Char.ofNat (c.toNat + 32)
  else if c = 'Ё' then 'ё'
  else c

/-- Python `str.isupper()` on one character (ASCII and Cyrillic). -/
def pyIsUpper (c : Char) : Bool :=
  ('A' ≤ c && c ≤ 'Z') || ('А' ≤ c && c ≤ 'Я') || c = 'Ё'

/-- Regex `\d` (the texts modelled carry ASCII digits). -/
def pDigit (c : Char) : Bool := c.isDigit

/-- Regex `.` without DOTALL: any character except a newline. -/
def pDotAny (c : Char) : Bool := c != '\n'

/-- Regex `[a-z]`. -/
def pLowerAZ (c : Char) : Bool := 'a' ≤ c && c ≤ 'z'

/-- `pat` is a prefix of `s` (character-wise). -/
def prefixOf : List Char → List Char → Bool
  | [], _ => true
  | _ :: _, [] => false
  | a :: as, b :: bs => a = b && prefixOf as bs

/-- Python's `pat in s`: `pat` occurs as a contiguous substring of `s`. -/
def containsSub (pat : List Char) : List Char → Bool
  | [] => prefixOf pat []
  | c :: rest => prefixOf pat (c :: rest) || containsSub pat rest

/-- Python `s.split('\n')`: split at every newline, keeping empty pieces. -/
def splitNlAux : List Char → List Char → List (List Char)
  | [], acc => [acc.reverse]
  | c :: cs, acc =>
    if c = '\n' then acc.reverse :: splitNlAux cs []
    else splitNlAux cs (c :: acc)

def splitNl (s : List Char) : List (List Char) := splitNlAux s []

/-- Python `s.split()` (no argument): the maximal runs of non-whitespace. -/
def wordsAux : List Char → List Char → List (List Char)
  | [], acc => if acc.isEmpty then [] else [acc.reverse]
  | c :: cs, acc =>
    if isPySpace c then
      if acc.isEmpty then wordsAux cs [] else acc.reverse :: wordsAux cs []
    else wordsAux cs (c :: acc)

def pyWords (s : List Char) : List (List Char) := wordsAux s []

/-! ### A small regex engine

Every pattern the program compiles is a plain sequence of literal
characters and quantified single-character classes — no groups and no
alternation — so a sequence of the following items captures them exactly,
with Python's leftmost-match and lazy/greedy quantifier semantics. -/

inductive RE where
  | lit (c : Char)
  | starLazy (p : Char → Bool)
  | starGreedy (p : Char → Bool)
  | plusGreedy (p : Char → Bool)
  | rep (p : Char → Bool) (lo hi : Nat)

/-- The suffixes of `s` reachable by consuming `0, 1, 2, …` leading
characters satisfying `p` (in that order: the lazy order). -/
def runSuffixes (p : Char → Bool) : List Char → List (List Char)
  | [] => [[]]
  | c :: cs => (c :: cs) :: (if p c then runSuffixes p cs else [])

/-- Match a pattern sequence at the head of `s`; on success return the
rest of `s` after the match.  Lazy quantifiers try short extensions
first, greedy ones long extensions first, backtracking as regexes do.
The `fuel` argument only drives structural recursion; one unit per
pattern item suffices, and the wrapper `matchSeq` always supplies it. -/
def matchSeqF : Nat → List RE → List Char → Option (List Char)
  | 0, _, _ => none
  | _ + 1, [], s => some s
  | _ + 1, .lit _ :: _, [] => none
  | f + 1, .lit c :: res, x :: xs => if x = c then matchSeqF f res xs else none
  | f + 1, .starLazy p :: res, s =>
    (runSuffixes p s).findSome? (fun t => matchSeqF f res t)
  | f + 1, .starGreedy p :: res, s =>
    (runSuffixes p s).reverse.findSome? (fun t => matchSeqF f res t)
  | _ + 1, .plusGreedy _ :: _, [] => none
  | f + 1, .plusGreedy p :: res, x :: xs =>
    if p x then (runSuffixes p xs).reverse.findSome? (fun t => matchSeqF f res t)
    else none
  | f + 1, .rep p lo hi :: res, s =>
    ((((runSuffixes p s).take (hi + 1)).drop lo).reverse).findSome?
      (fun t => matchSeqF f res t)

def matchSeq (res : List RE) (s : List Char) : Option (List Char) :=
  matchSeqF (res.length + 1) res s

/-- Python `re.sub(pattern, repl, s)` for the patterns above: scan left to
right, replace each non-overlapping match, never rescanning a replacement.
(All of the program's patterns match at least one character, so the guard
against an empty match never fires on them.)  `fuel` only drives structural
recursion: one unit per input character suffices, and `subAll` supplies it. -/
def subAllF (res : List RE) (repl : List Char) : Nat → List Char → List Char
  | _, [] => []
  | 0, s => s
  | f + 1, c :: cs =>
    match matchSeq res (c :: cs) with
    | some rest =>
      if rest.length < cs.length + 1 then repl ++ subAllF res repl f rest
      else c :: subAllF res repl f cs
    | none => c :: subAllF res repl f cs

def subAll (res : List RE) (repl : List Char) (s : List Char) : List Char :=
  subAllF res repl s.length s

/-! ### The extractor's configuration (`__init__`) -/

def min_chapter_length : Nat := 1000

def skip_sections : List (List Char) :=
  [ "предисловие".data
  , "благодарности".data
  , "об авторе".data
  , "содержание".data
  , "оглавление".data
  , "список литературы".data
  , "приложение".data
  , "примечания".data
  , "copyright".data
  , "выходные данные".data
  , "isbn".data ]

def litStr (s : String) : List RE := s.data.map RE.lit

/-- `technical_patterns`, each with its replacement (always empty). -/
def technical_patterns : List (List RE) :=
  [ [RE.lit '©', RE.starLazy pDotAny, RE.rep pDigit 4 4]
  , litStr "ISBN" ++ [RE.starLazy pDotAny, RE.plusGreedy pDigit]
  , litStr "Издательство" ++ [RE.starLazy pDotAny, RE.lit '\n']
  , litStr "www" ++ [RE.lit '.', RE.starLazy pDotAny, RE.lit '.', RE.rep pLowerAZ 2 4]
  , [RE.lit '[', RE.starLazy pDotAny, RE.lit ']']
  , litStr "(c)" ++ [RE.starLazy pDotAny, RE.rep pDigit 4 4]
  , litStr "Все права защищены" ++ [RE.starLazy pDotAny, RE.lit '\n']
  , litStr "Подписано в печать" ++ [RE.starLazy pDotAny, RE.lit '\n']
  , litStr "Формат" ++ [RE.starLazy pDotAny, RE.lit '\n']
  , litStr "Тираж" ++ [RE.starLazy pDotAny, RE.lit '\n'] ]

/-- `\n\s*\n` (collapsed to a single blank line). -/
def reNlBlank : List RE := [RE.lit '\n', RE.starGreedy isPySpace, RE.lit '\n']

/-- `\n\s*\d+\s*\n` (a page-number line, replaced by one newline). -/
def rePageNum : List RE :=
  [RE.lit '\n', RE.starGreedy isPySpace, RE.plusGreedy pDigit,
   RE.starGreedy isPySpace, RE.lit '\n']

/-! ### `clean_text` -/

/-- The skip-section loop of `clean_text`: a line containing a skip marker
(lower-cased) turns skip mode on and is dropped; a blank line or a line
starting with `#` turns it off again; lines seen outside skip mode are kept. -/
def skipFilter : List (List Char) → Bool → List (List Char)
  | [], _ => []
  | line :: rest, skip =>
    let lineLower := stripChars (line.map pyLower)
    if skip_sections.any (fun sec => containsSub sec lineLower) then
      skipFilter rest true
    else
      let skip' :=
        if skip && ((stripChars line).isEmpty || (stripChars line).head? = some '#')
        then false else skip
      if skip' then skipFilter rest skip' else line :: skipFilter rest skip'

/-- `clean_text` on a character list: drop skip sections, erase the
technical patterns, collapse blank lines, remove page-number lines, strip. -/
def cleanTextL (s : List Char) : List Char :=
  let kept := skipFilter (splitNl s) false
  let t1 := (List.intercalate ['\n'] kept : List Char)
  let t2 := technical_patterns.foldl (fun t pat => subAll pat [] t) t1
  let t3 := subAll reNlBlank ['\n', '\n'] t2
  let t4 := subAll rePageNum ['\n'] t3
  stripChars t4

def clean_text (s : String) : String := ⟨cleanTextL s.data⟩

/-! ### The document model

A parsed document exposes pages; a page exposes blocks; a block either
carries lines (each a list of spans) or none; a span carries `text` and
`size`.  Font sizes are modelled in exact fixed point: a raw span size is
an integer count of thousandths of a point (`10.5 pt` is `10500`).  Every
comparison the program makes factors through `round(size, 1)`, so this
representation is order-isomorphic to the sizes themselves. -/

structure Span where
  text : String
  size : ℤ
deriving DecidableEq

inductive Block where
  | noLines
  | withLines (lines : List (List Span))
deriving DecidableEq

abbrev Page := List Block
abbrev Doc := List Page

/-- The spans a block contributes: none without lines, else its lines'
spans in order. -/
def blockSpans : Block → List Span
  | Block.noLines => []
  | Block.withLines lines => lines.flatMap (fun l => l)

def pageSpans (page : Page) : List Span := page.flatMap blockSpans

/-- The spans of a document in reading order — the order every loop
`for page in doc / for block / for line / for span` visits them. -/
def docSpans (d : Doc) : List Span := d.flatMap pageSpans

/-- Python `round(x, 1)` on a span size: thousandths of a point in,
tenths of a point out; round to nearest, ties to even. -/
def round1 (milli : ℤ) : ℤ :=
  let q := Int.fdiv milli 100
  let r := milli - 100 * q
  if r < 50 then q
  else if 50 < r then q + 1
  else if q % 2 = 0 then q else q + 1

/-! ### `analyze_document_structure` -/

structure DocStructure where
  main_font_size : ℤ
  header_font_sizes : List ℤ
  font_samples : List (ℤ × List String)
deriving DecidableEq

/-- `font_stats[k] += 1` on an insertion-ordered association list. -/
def bump (k : ℤ) : List (ℤ × Nat) → List (ℤ × Nat)
  | [] => [(k, 1)]
  | (k', n) :: rest =>
    if k = k' then (k', n + 1) :: rest else (k', n) :: bump k rest

/-- `if len(font_samples[k]) < 5: font_samples[k].append(t)` on an
insertion-ordered association list (the defaultdict creates the entry). -/
def bumpSample (k : ℤ) (t : String) : List (ℤ × List String) → List (ℤ × List String)
  | [] => [(k, [t])]
  | (k', ts) :: rest =>
    if k = k' then (k', if ts.length < 5 then ts ++ [t] else ts) :: rest
    else (k', ts) :: bumpSample k t rest

/-- One span of the statistics loop: skip spans whose stripped text is
empty, otherwise count the rounded size and record a sample
(`font_size = round1 sp.size` and `text = stripChars sp.text.data`
written out in place). -/
def statsStep (st : List (ℤ × Nat) × List (ℤ × List String)) (sp : Span) :
    List (ℤ × Nat) × List (ℤ × List String) :=
  if (stripChars sp.text.data).isEmpty then st
  else (bump (round1 sp.size) st.1,
        bumpSample (round1 sp.size) ⟨stripChars sp.text.data⟩ st.2)

def fontTables (spans : List Span) : List (ℤ × Nat) × List (ℤ × List String) :=
  spans.foldl statsStep ([], [])

/-- One comparison of Python `max(items, key=snd)`: replace the running
best only on a strictly larger count, keeping the first maximum. -/
def maxStep (best q : ℤ × Nat) : ℤ × Nat := if best.2 < q.2 then q else best

/-- Python `max(items, key=snd)`: first item of maximal count; `None`
for an empty sequence, where CPython raises `ValueError`. -/
def maxBySnd : List (ℤ × Nat) → Option (ℤ × Nat)
  | [] => none
  | p :: rest => some (rest.foldl maxStep p)

def lookupCount (k : ℤ) : List (ℤ × Nat) → Nat
  | [] => 0
  | (k', n) :: rest => if k = k' then n else lookupCount k rest

/-- Python `sorted` (ascending, stable). -/
def sortAsc (l : List ℤ) : List ℤ := l.insertionSort (· ≤ ·)

/-- `analyze_document_structure`, with `font_stats`/`font_samples` the two
components of `fontTables` and `main_font_size = m.1` written in place.
`font_stats[size] < font_stats[main] * 0.5` is stated over naturals as
`2 * count < main count` (multiplying an integer by 0.5 is exact). -/
def analyze_document_structure (d : Doc) : Except String DocStructure :=
  match maxBySnd (fontTables (docSpans d)).1 with
  | none => Except.error "max() arg is an empty sequence"
  | some m =>
    Except.ok
      ⟨m.1,
       sortAsc (((fontTables (docSpans d)).1.map Prod.fst).filter
         (fun size => decide (m.1 < size) &&
           decide (2 * lookupCount size (fontTables (docSpans d)).1 <
             lookupCount m.1 (fontTables (docSpans d)).1))),
       (fontTables (docSpans d)).2⟩

/-! ### `is_potential_header` -/

/-- The five `header_indicators` lambdas, in source order. -/
def header_indicators : List (List Char → Bool) :=
  [ fun t => (t.head?.map pyIsUpper).getD false
  , fun t => t.any (fun c => '0' ≤ c && c ≤ '9')
  , fun t => !(t.getLast? == some '.')
  , fun t => decide ((pyWords t).length ≤ 15)
  , fun t => !(t.any (fun c => c = ',' || c = ':' || c = ';')) ]

/-- `is_potential_header` (`t = stripChars text.data` written in place). -/
def is_potential_header (text : String) (font_size : ℤ) (ds : DocStructure) : Bool :=
  if font_size ∉ ds.header_font_sizes then false
  else if (stripChars text.data).isEmpty then false
  else if 20 < (pyWords (stripChars text.data)).length then false
  else decide (3 ≤ header_indicators.countP (fun check => check (stripChars text.data)))

/-! ### `extract_chapters` -/

structure ExtState where
  chapters : List (String × String)
  current_chapter : List String
  current_title : Option String
deriving DecidableEq

/-- Python truthiness of `current_title` (`None` and `""` are falsy). -/
def titleTruthy : Option String → Bool
  | none => false
  | some t => !(t == "")

/-- The `if current_title and current_chapter:` block: clean the joined
body, keep the chapter only when strictly longer than
`min_chapter_length`, reset the accumulator
(`chapter_text = clean_text (join)` written in place). -/
def closeChapter (st : ExtState) : ExtState :=
  if titleTruthy st.current_title && !st.current_chapter.isEmpty then
    { chapters :=
        if min_chapter_length <
            (clean_text (String.intercalate "\n" st.current_chapter)).length then
          st.chapters ++ [(st.current_title.getD "",
            clean_text (String.intercalate "\n" st.current_chapter))]
        else st.chapters
      current_chapter := []
      current_title := st.current_title }
  else st

/-- One span of the extraction walk (`text = stripChars sp.text.data` and
`font_size = round1 sp.size` written in place). -/
def stepSpan (ds : DocStructure) (st : ExtState) (sp : Span) : ExtState :=
  if is_potential_header ⟨stripChars sp.text.data⟩ (round1 sp.size) ds then
    { closeChapter st with current_title := some ⟨stripChars sp.text.data⟩ }
  else if titleTruthy st.current_title then
    { st with current_chapter := st.current_chapter ++ [⟨stripChars sp.text.data⟩] }
  else st

def extract_chapters (d : Doc) : Except String (List (String × String)) :=
  match analyze_document_structure d with
  | Except.error e => Except.error e
  | Except.ok ds =>
    Except.ok (closeChapter ((docSpans d).foldl (stepSpan ds) ⟨[], [], none⟩)).chapters

/-! ### `save_chapters_to_files`

Modelled as the write plan it performs: the list of
`(file name, file content)` pairs, enumerated from 1. -/

def pad2 (i : Nat) : String := if i < 10 then "0" ++ toString i else toString i

def sepLine : String := ⟨List.replicate 50 '='⟩

def saveAux : Nat → List (String × String) → List (String × String)
  | _, [] => []
  | i, (title, content) :: rest =>
    ("chapter_" ++ pad2 i ++ ".txt",
     "Title: " ++ title ++ "\n" ++ sepLine ++ "\n\n" ++ content) :: saveAux (i + 1) rest

def save_chapters_to_files (chapters : List (String × String)) : List (String × String) :=
  saveAux 1 chapters

/-! ### Specification-side vocabulary

Definitions phrased from the specification's wording, used to state the
claims about the code-derived definitions above. -/

/-- A span that contributes to the statistics: its stripped text is nonempty. -/
def counted (sp : Span) : Bool := !(stripChars sp.text.data).isEmpty

/-- The occurrence count of (1-decimal-rounded) size `s` over a span list. -/
def specCount (spans : List Span) (s : ℤ) : Nat :=
  spans.countP (fun sp => counted sp && (round1 sp.size == s))

/-- Size `s` is observed: some counted span rounds to it. -/
def observedSize (spans : List Span) (s : ℤ) : Prop :=
  ∃ sp ∈ spans, counted sp = true ∧ round1 sp.size = s

/-- The five checks of the claim, in its wording: first character
uppercase; contains a decimal digit; does not end with a period; at most
15 words; contains none of `,` `:` `;`. -/
def specChecks (t : List Char) : List Bool :=
  [ (t.head?.map pyIsUpper).getD false
  , t.any Char.isDigit
  , !(t.getLast? == some '.')
  , decide ((pyWords t).length ≤ 15)
  , !(t.any (fun c => c = ',' || c = ':' || c = ';')) ]

/-- How many of the claim's five checks pass. -/
def specChecksPassed (t : List Char) : Nat := (specChecks t).countP id

/-- The number of spans the walk classifies as headers. -/
def headerCount (ds : DocStructure) (spans : List Span) : Nat :=
  spans.countP (fun sp =>
    is_potential_header ⟨stripChars sp.text.data⟩ (round1 sp.size) ds)

/-- A block with its whitespace-only spans removed. -/
def filterBlock : Block → Block
  | Block.noLines => Block.noLines
  | Block.withLines lines => Block.withLines (lines.map (fun l => l.filter counted))

/-- The document with its whitespace-only spans removed (structure kept). -/
def filterDoc (d : Doc) : Doc :=
  d.map (fun page => page.map filterBlock)

/-- Strings over this alphabet (lowercase Latin letters other than
`w`, `b`, `y`) contain no newline, no whitespace, no skip-section marker
and no character any noise pattern can start with: they are noise-free. -/
def plainChar (c : Char) : Bool :=
  ('a' ≤ c && c ≤ 'z') && !(c = 'w' || c = 'b' || c = 'y')

/-! ### Concrete documents for witnesses and counterexamples -/

def aBody : String := ⟨List.replicate 1001 'a'⟩

/-- What the extractor emits as the body of `exDoc`'s one chapter. -/
def exBody : String := aBody ++ "\nc\nd"

/-- One heading-sized span whose text carries surrounding whitespace,
followed by more than 1000 characters of body text. -/
def exDoc : Doc :=
  [[Block.withLines
      [[⟨" Chapter 1 ", 20000⟩, ⟨aBody, 10000⟩, ⟨"c", 10000⟩, ⟨"d", 10000⟩]]]]

/-- The profile `analyze_document_structure` computes for `exDoc`. -/
def exDS : DocStructure :=
  ⟨100, [200], [(200, ["Chapter 1"]), (100, [aBody, "c", "d"])]⟩

/-- A document whose spans all share one font size. -/
def monoDoc : Doc := [[Block.withLines [[⟨"x", 10000⟩]]]]

/-- A document with a whitespace-only span. -/
def wsDoc : Doc := [[Block.withLines [[⟨" ", 12000⟩, ⟨"x", 10000⟩]]]]

/-! ## Evaluation lemmas on the concrete documents -/

theorem exDoc_analyze_eval : analyze_document_structure exDoc = Except.ok exDS := by
  rfl

theorem exDoc_extract_eval :
    extract_chapters exDoc = Except.ok [("Chapter 1", exBody)] := by
  rfl

/-! ## C7: the write plan of `save_chapters_to_files` -/

theorem saveAux_getElem (l : List (String × String)) :
    ∀ (n i : Nat), (saveAux n l)[i]? = (l[i]?).map
      (fun p => ("chapter_" ++ pad2 (n + i) ++ ".txt",
        "Title: " ++ p.1 ++ "\n" ++ sepLine ++ "\n\n" ++ p.2)) := by
  induction l with
  | nil => intro n i; simp only [saveAux, List.getElem?_nil, Option.map_none']
  | cons hd tl ih =>
    intro n i
    obtain ⟨t, c⟩ := hd
    cases i with
    | zero =>
      simp only [saveAux, List.getElem?_cons_zero, Option.map_some', Nat.add_zero]
    | succ j =>
      have h : n + (j + 1) = (n + 1) + j := by omega
      rw [h]
      simp only [saveAux, List.getElem?_cons_succ]
      exact ih (n + 1) j

/-- C7: for every chapter list, the i-th chapter (1-based) is written to a
file named `chapter_{i:02d}.txt`, whose content is the line
`Title: <title>`, a separator line of 50 `=` characters, a blank line,
then the body verbatim. -/
theorem save_chapters_to_files_spec (chapters : List (String × String))
    (i : Nat) (title content : String)
    (h : chapters[i]? = some (title, content)) :
    (save_chapters_to_files chapters)[i]? =
      some ("chapter_" ++ pad2 (i + 1) ++ ".txt",
        "Title: " ++ title ++ "\n" ++ String.mk (List.replicate 50 '=')
          ++ "\n\n" ++ content) := by
  rw [save_chapters_to_files, saveAux_getElem chapters 1 i, h, Nat.add_comm 1 i]
  rfl

theorem save_chapters_to_files_spec_witness :
    (save_chapters_to_files [("T", "B")])[0]? =
      some ("chapter_" ++ pad2 (0 + 1) ++ ".txt",
        "Title: " ++ "T" ++ "\n" ++ String.mk (List.replicate 50 '=')
          ++ "\n\n" ++ "B") :=
  save_chapters_to_files_spec [("T", "B")] 0 "T" "B" rfl

/-! ## C4: a document with no extractable text fails explicitly -/

theorem foldl_statsStep_skip (l : List Span)
    (st : List (ℤ × Nat) × List (ℤ × List String))
    (h : ∀ sp ∈ l, stripChars sp.text.data = []) :
    l.foldl statsStep st = st := by
  induction l generalizing st with
  | nil => rfl
  | cons hd tl ih =>
    have hhd : stripChars hd.text.data = [] := h hd (by simp)
    have hstep : statsStep st hd = st := by
      simp [statsStep, hhd]
    rw [List.foldl_cons, hstep]
    exact ih st (fun sp hsp => h sp (by simp [hsp]))

/-- C4: a document with zero extractable text spans makes
`analyze_document_structure` fail explicitly with an error instead of
returning a profile. -/
theorem analyze_no_text_error (d : Doc)
    (h : ∀ sp ∈ docSpans d, stripChars sp.text.data = []) :
    ∃ e, analyze_document_structure d = Except.error e := by
  refine ⟨"max() arg is an empty sequence", ?_⟩
  unfold analyze_document_structure fontTables
  rw [foldl_statsStep_skip _ _ h]
  rfl

theorem analyze_no_text_error_witness :
    ∃ e, analyze_document_structure [] = Except.error e :=
  analyze_no_text_error [] (by simp [docSpans])

/-! ## C1: every emitted chapter's cleaned body exceeds 1000 characters -/

/-- The invariant the walk maintains over accumulated chapters. -/
def ChapterOk (p : String × String) : Prop :=
  min_chapter_length < p.2.length ∧ ∃ raw, p.2 = clean_text raw

theorem closeChapter_chapters (st : ExtState) :
    (closeChapter st).chapters =
      if titleTruthy st.current_title && !st.current_chapter.isEmpty then
        (if min_chapter_length <
            (clean_text (String.intercalate "\n" st.current_chapter)).length then
          st.chapters ++ [(st.current_title.getD "",
            clean_text (String.intercalate "\n" st.current_chapter))]
        else st.chapters)
      else st.chapters := by
  unfold closeChapter
  by_cases h1 : (titleTruthy st.current_title && !st.current_chapter.isEmpty) = true
  · rw [if_pos h1, if_pos h1]
  · rw [if_neg h1, if_neg h1]

theorem closeChapter_sound (st : ExtState)
    (h : ∀ p ∈ st.chapters, ChapterOk p) :
    ∀ p ∈ (closeChapter st).chapters, ChapterOk p := by
  intro p hp
  rw [closeChapter_chapters st] at hp
  by_cases h1 : (titleTruthy st.current_title && !st.current_chapter.isEmpty) = true
  · rw [if_pos h1] at hp
    by_cases h2 : min_chapter_length <
        (clean_text (String.intercalate "\n" st.current_chapter)).length
    · rw [if_pos h2] at hp
      rcases List.mem_append.mp hp with hmem | hmem
      · exact h p hmem
      · rw [List.mem_singleton] at hmem
        subst hmem
        exact ⟨h2, _, rfl⟩
    · rw [if_neg h2] at hp
      exact h p hp
  · rw [if_neg h1] at hp
    exact h p hp

theorem stepSpan_sound (ds : DocStructure) (st : ExtState) (sp : Span)
    (h : ∀ p ∈ st.chapters, ChapterOk p) :
    ∀ p ∈ (stepSpan ds st sp).chapters, ChapterOk p := by
  unfold stepSpan
  split
  · intro p hp
    exact closeChapter_sound st h p hp
  · split
    · intro p hp
      exact h p hp
    · exact h

theorem foldl_stepSpan_sound (ds : DocStructure) (l : List Span) (st : ExtState)
    (h : ∀ p ∈ st.chapters, ChapterOk p) :
    ∀ p ∈ (l.foldl (stepSpan ds) st).chapters, ChapterOk p := by
  induction l generalizing st with
  | nil => exact h
  | cons hd tl ih =>
    rw [List.foldl_cons]
    exact ih (stepSpan ds st hd) (stepSpan_sound ds st hd h)

/-- A successful extraction is the closed-out final fold state. -/
theorem extract_chapters_ok_structure (d : Doc) (out : List (String × String))
    (h : extract_chapters d = Except.ok out) :
    ∃ ds, analyze_document_structure d = Except.ok ds ∧
      out = (closeChapter ((docSpans d).foldl (stepSpan ds) ⟨[], [], none⟩)).chapters := by
  unfold extract_chapters at h
  cases hds : analyze_document_structure d with
  | error e =>
    rw [hds] at h
    exact absurd h (by simp)
  | ok ds =>
    rw [hds] at h
    injection h with h'
    exact ⟨ds, rfl, h'.symm⟩

/-- C1: every chapter returned by `extract_chapters` has a cleaned body
whose length strictly exceeds 1000 characters — one of exactly 1000 is
dropped — whether closed by the next recognized header or at end of
document (the theorem covers the entire walk plus the final close). -/
theorem extract_chapters_min_length (d : Doc) (out : List (String × String))
    (h : extract_chapters d = Except.ok out) :
    ∀ p ∈ out, 1000 < p.2.length ∧ ∃ raw, p.2 = clean_text raw := by
  obtain ⟨ds, -, hout⟩ := extract_chapters_ok_structure d out h
  subst hout
  intro p hp
  exact closeChapter_sound _
    (foldl_stepSpan_sound ds (docSpans d) ⟨[], [], none⟩
      (by intro q hq; cases hq)) p hp

theorem extract_chapters_min_length_witness :
    1000 < (("Chapter 1", exBody) : String × String).2.length ∧
      ∃ raw, (("Chapter 1", exBody) : String × String).2 = clean_text raw :=
  extract_chapters_min_length exDoc [("Chapter 1", exBody)] exDoc_extract_eval
    ("Chapter 1", exBody) (List.mem_singleton.mpr rfl)

/-! ## C5: characterization of `is_potential_header` -/

/-- C5: the classifier rejects whenever the font size is not among the
profile's header sizes, or the trimmed text is empty, or it has more than
20 words; otherwise it answers true exactly when at least 3 of the 5
checks pass (first character uppercase; contains a decimal digit; no
trailing period; at most 15 words; none of `,` `:` `;`).  In particular
`"Chapter 1"` at a header-profiled size is classified as a header. -/
theorem is_potential_header_spec (text : String) (font_size : ℤ) (ds : DocStructure) :
    ((font_size ∉ ds.header_font_sizes ∨ stripChars text.data = [] ∨
        20 < (pyWords (stripChars text.data)).length) →
      is_potential_header text font_size ds = false) ∧
    (font_size ∈ ds.header_font_sizes → stripChars text.data ≠ [] →
      (pyWords (stripChars text.data)).length ≤ 20 →
      (is_potential_header text font_size ds = true ↔
        3 ≤ specChecksPassed (stripChars text.data))) ∧
    (font_size ∈ ds.header_font_sizes →
      is_potential_header "Chapter 1" font_size ds = true) := by
  refine ⟨?_, ?_, ?_⟩
  · intro hcond
    unfold is_potential_header
    by_cases hm : font_size ∈ ds.header_font_sizes
    · rw [if_neg (not_not_intro hm)]
      rcases hcond with h | h | h
      · exact absurd hm h
      · rw [if_pos (by simpa using h)]
      · by_cases he : (stripChars text.data).isEmpty = true
        · rw [if_pos he]
        · rw [if_neg he, if_pos h]
    · rw [if_pos hm]
  · intro hm hne hw
    unfold is_potential_header
    rw [if_neg (not_not_intro hm), if_neg (by simpa using hne),
        if_neg (by omega)]
    simp only [decide_eq_true_iff]
    rfl
  · intro hm
    unfold is_potential_header
    rw [if_neg (not_not_intro hm)]
    rfl

theorem is_potential_header_spec_witness :
    (is_potential_header "x" 100 exDS = false) ∧
    (is_potential_header "Hello 7" 200 exDS = true ↔
      3 ≤ specChecksPassed (stripChars ("Hello 7" : String).data)) ∧
    (is_potential_header "Chapter 1" 200 exDS = true) :=
  ⟨(is_potential_header_spec "x" 100 exDS).1 (Or.inl (by decide)),
   (is_potential_header_spec "Hello 7" 200 exDS).2.1 (by decide) (by decide) (by decide),
   (is_potential_header_spec "Chapter 1" 200 exDS).2.2 (by decide)⟩

/-! ## Font-statistics lemmas -/

theorem map_fst_bump (k : ℤ) (st : List (ℤ × Nat)) :
    (bump k st).map Prod.fst =
      if k ∈ st.map Prod.fst then st.map Prod.fst
      else st.map Prod.fst ++ [k] := by
  induction st with
  | nil => simp [bump]
  | cons hd tl ih =>
    obtain ⟨k', n⟩ := hd
    by_cases hk : k = k'
    · subst hk
      simp [bump]
    · rw [bump, if_neg hk]
      by_cases hmem : k ∈ tl.map Prod.fst
      · simp [hmem, hk, ih]
      · simp [hmem, hk, ih]

theorem mem_map_fst_bump (k a : ℤ) (st : List (ℤ × Nat)) :
    a ∈ (bump k st).map Prod.fst ↔ a ∈ st.map Prod.fst ∨ a = k := by
  rw [map_fst_bump]
  by_cases h : k ∈ st.map Prod.fst
  · rw [if_pos h]
    constructor
    · exact Or.inl
    · rintro (ha | rfl)
      · exact ha
      · exact h
  · rw [if_neg h]
    simp

theorem nodup_map_fst_bump (k : ℤ) (st : List (ℤ × Nat))
    (h : (st.map Prod.fst).Nodup) : ((bump k st).map Prod.fst).Nodup := by
  rw [map_fst_bump]
  by_cases hm : k ∈ st.map Prod.fst
  · rw [if_pos hm]; exact h
  · rw [if_neg hm]
    simp [List.nodup_append, h, hm]

theorem lookupCount_bump (k a : ℤ) (st : List (ℤ × Nat)) :
    lookupCount a (bump k st) =
      if a = k then lookupCount a st + 1 else lookupCount a st := by
  induction st with
  | nil =>
    by_cases ha : a = k <;> simp [bump, lookupCount, ha]
  | cons hd tl ih =>
    obtain ⟨k', n⟩ := hd
    by_cases hk : k = k'
    · subst hk
      by_cases ha : a = k <;> simp [bump, lookupCount, ha]
    · rw [bump, if_neg hk]
      by_cases ha : a = k'
      · subst ha
        have hak : ¬ a = k := fun h => hk h.symm
        simp [lookupCount, hak]
      · simp [lookupCount, ha, ih]

theorem lookupCount_eq_of_mem (a : ℤ) (n : Nat) (st : List (ℤ × Nat))
    (hnd : (st.map Prod.fst).Nodup) (hmem : (a, n) ∈ st) :
    lookupCount a st = n := by
  induction st with
  | nil => cases hmem
  | cons hd tl ih =>
    obtain ⟨k', m⟩ := hd
    rw [List.map_cons] at hnd
    have hnd' := List.nodup_cons.mp hnd
    rcases List.mem_cons.mp hmem with heq | htl
    · injection heq with h1 h2
      subst h1; subst h2
      simp [lookupCount]
    · have ha : a ≠ k' := by
        intro h
        have hin : Prod.fst (a, n) ∈ tl.map Prod.fst :=
          List.mem_map_of_mem Prod.fst htl
        rw [h] at hin
        exact hnd'.1 hin
      simp only [lookupCount, if_neg ha]
      exact ih hnd'.2 htl

theorem mem_of_mem_keys (a : ℤ) (st : List (ℤ × Nat))
    (h : a ∈ st.map Prod.fst) : (a, lookupCount a st) ∈ st := by
  induction st with
  | nil => cases h
  | cons hd tl ih =>
    obtain ⟨k', m⟩ := hd
    by_cases ha : a = k'
    · subst ha
      simp [lookupCount]
    · rw [List.map_cons] at h
      have hmem' : a ∈ tl.map Prod.fst := by
        rcases List.mem_cons.mp h with h' | h'
        · exact absurd h' ha
        · exact h'
      have hlk : lookupCount a ((k', m) :: tl) = lookupCount a tl := by
        simp [lookupCount, ha]
      rw [hlk]
      exact List.mem_cons_of_mem _ (ih hmem')

theorem foldl_statsStep_keys (l : List Span) :
    ∀ (st : List (ℤ × Nat) × List (ℤ × List String)) (a : ℤ),
      a ∈ ((l.foldl statsStep st).1).map Prod.fst ↔
        a ∈ st.1.map Prod.fst ∨ ∃ sp ∈ l, counted sp = true ∧ round1 sp.size = a := by
  induction l with
  | nil => intro st a; simp
  | cons hd tl ih =>
    intro st a
    rw [List.foldl_cons, ih (statsStep st hd) a]
    unfold statsStep
    by_cases hc : (stripChars hd.text.data).isEmpty = true
    · rw [if_pos hc]
      have hcnt : counted hd = false := by simp [counted, hc]
      simp [hcnt]
    · rw [if_neg hc]
      have hcnt : counted hd = true := by simp [counted, hc]
      dsimp only
      rw [mem_map_fst_bump]
      simp only [List.mem_cons, hcnt]
      constructor
      · rintro ((h | h) | h)
        · exact Or.inl h
        · exact Or.inr ⟨hd, Or.inl rfl, hcnt, h.symm⟩
        · rcases h with ⟨sp, hsp, hh1, hh2⟩
          exact Or.inr ⟨sp, Or.inr hsp, hh1, hh2⟩
      · rintro (h | ⟨sp, hsp | hsp, hh1, hh2⟩)
        · exact Or.inl (Or.inl h)
        · subst hsp
          exact Or.inl (Or.inr hh2.symm)
        · exact Or.inr ⟨sp, hsp, hh1, hh2⟩

theorem foldl_statsStep_nodup (l : List Span) :
    ∀ st, (st.1.map Prod.fst).Nodup →
      (((l.foldl statsStep st).1).map Prod.fst).Nodup := by
  induction l with
  | nil => intro st h; exact h
  | cons hd tl ih =>
    intro st h
    rw [List.foldl_cons]
    refine ih (statsStep st hd) ?_
    unfold statsStep
    by_cases hc : (stripChars hd.text.data).isEmpty = true
    · rw [if_pos hc]; exact h
    · rw [if_neg hc]
      exact nodup_map_fst_bump _ _ h

theorem foldl_statsStep_lookup (l : List Span) :
    ∀ st (a : ℤ), lookupCount a (l.foldl statsStep st).1 =
      lookupCount a st.1 + specCount l a := by
  induction l with
  | nil => intro st a; simp [specCount]
  | cons hd tl ih =>
    intro st a
    rw [List.foldl_cons, ih (statsStep st hd) a]
    unfold statsStep
    by_cases hc : (stripChars hd.text.data).isEmpty = true
    · rw [if_pos hc]
      have hcnt : counted hd = false := by simp [counted, hc]
      simp [specCount, List.countP_cons, hcnt]
    · rw [if_neg hc]
      have hcnt : counted hd = true := by simp [counted, hc]
      dsimp only
      rw [lookupCount_bump]
      by_cases ha : a = round1 hd.size
      · subst ha
        simp [specCount, List.countP_cons, hcnt]
        omega
      · have hbeq : (round1 hd.size == a) = false := by
          simp only [beq_eq_false_iff_ne, ne_eq]
          exact fun h => ha h.symm
        simp [specCount, List.countP_cons, hcnt, hbeq, ha]

theorem foldl_maxStep_choice (l : List (ℤ × Nat)) :
    ∀ b, l.foldl maxStep b = b ∨ l.foldl maxStep b ∈ l := by
  induction l with
  | nil => intro b; exact Or.inl rfl
  | cons hd tl ih =>
    intro b
    rw [List.foldl_cons]
    rcases ih (maxStep b hd) with h | h
    · rw [h]
      unfold maxStep
      split
      · exact Or.inr (List.mem_cons_self _ _)
      · exact Or.inl rfl
    · exact Or.inr (List.mem_cons_of_mem _ h)

theorem foldl_maxStep_ge (l : List (ℤ × Nat)) :
    ∀ b, b.2 ≤ (l.foldl maxStep b).2 ∧ ∀ q ∈ l, q.2 ≤ (l.foldl maxStep b).2 := by
  induction l with
  | nil =>
    intro b
    exact ⟨le_refl _, by intro q hq; cases hq⟩
  | cons hd tl ih =>
    intro b
    rw [List.foldl_cons]
    obtain ⟨h1, h2⟩ := ih (maxStep b hd)
    have hb : b.2 ≤ (maxStep b hd).2 := by
      unfold maxStep; split
      · omega
      · exact le_refl _
    have hhd : hd.2 ≤ (maxStep b hd).2 := by
      unfold maxStep; split
      · exact le_refl _
      · omega
    refine ⟨le_trans hb h1, ?_⟩
    intro q hq
    rcases List.mem_cons.mp hq with heq | hq'
    · subst heq; exact le_trans hhd h1
    · exact h2 q hq'

theorem maxBySnd_spec (st : List (ℤ × Nat)) (m : ℤ × Nat)
    (h : maxBySnd st = some m) : m ∈ st ∧ ∀ q ∈ st, q.2 ≤ m.2 := by
  cases st with
  | nil => cases h
  | cons p rest =>
    rw [maxBySnd] at h
    injection h with h'
    subst h'
    constructor
    · rcases foldl_maxStep_choice rest p with h | h
      · rw [h]; exact List.mem_cons_self _ _
      · exact List.mem_cons_of_mem _ h
    · intro q hq
      obtain ⟨h1, h2⟩ := foldl_maxStep_ge rest p
      rcases List.mem_cons.mp hq with heq | hq'
      · subst heq; exact h1
      · exact h2 q hq'

/-! ## C6: a single-font-size document degrades gracefully -/

theorem bump_ne_nil (k : ℤ) (st : List (ℤ × Nat)) : bump k st ≠ [] := by
  cases st with
  | nil => simp [bump]
  | cons hd tl =>
    obtain ⟨k', n⟩ := hd
    by_cases hk : k = k' <;> simp [bump, hk]

theorem statsStep_fst_ne_nil (st : List (ℤ × Nat) × List (ℤ × List String))
    (sp : Span) (h : st.1 ≠ []) : (statsStep st sp).1 ≠ [] := by
  unfold statsStep
  split
  · exact h
  · exact bump_ne_nil _ _

theorem foldl_statsStep_ne_nil (l : List Span) :
    ∀ (st : List (ℤ × Nat) × List (ℤ × List String)),
      ((∃ sp ∈ l, counted sp = true) ∨ st.1 ≠ []) →
      (l.foldl statsStep st).1 ≠ [] := by
  induction l with
  | nil =>
    intro st h
    rcases h with ⟨sp, hsp, _⟩ | h
    · cases hsp
    · exact h
  | cons hd tl ih =>
    intro st h
    rw [List.foldl_cons]
    refine ih (statsStep st hd) ?_
    rcases h with ⟨sp, hsp, hcnt⟩ | h
    · rcases List.mem_cons.mp hsp with heq | htl
      · subst heq
        right
        have hcnt' : (stripChars sp.text.data).isEmpty = false := by
          simpa [counted] using hcnt
        simp only [statsStep, hcnt', Bool.false_eq_true, if_false]
        exact bump_ne_nil _ _
      · exact Or.inl ⟨sp, htl, hcnt⟩
    · exact Or.inr (statsStep_fst_ne_nil st hd h)

theorem foldl_stepSpan_no_header (ds : DocStructure) (l : List Span)
    (h : ∀ sp ∈ l,
      is_potential_header ⟨stripChars sp.text.data⟩ (round1 sp.size) ds = false) :
    l.foldl (stepSpan ds) ⟨[], [], none⟩ = ⟨[], [], none⟩ := by
  induction l with
  | nil => rfl
  | cons hd tl ih =>
    rw [List.foldl_cons]
    have hstep : stepSpan ds ⟨[], [], none⟩ hd = ⟨[], [], none⟩ := by
      simp [stepSpan, h hd (List.mem_cons_self _ _), titleTruthy]
    rw [hstep]
    exact ih (fun sp hsp => h sp (List.mem_cons_of_mem _ hsp))

/-- C6: if every span of a document shares one rounded font size (and the
document has extractable text), the computed profile has an empty
`header_font_sizes`, every span classifies as non-header, and
`extract_chapters` returns an empty chapter list without raising. -/
theorem single_font_size_graceful (d : Doc) (s0 : ℤ)
    (hne : ∃ sp ∈ docSpans d, counted sp = true)
    (hall : ∀ sp ∈ docSpans d, round1 sp.size = s0) :
    ∃ ds, analyze_document_structure d = Except.ok ds ∧
      ds.header_font_sizes = [] ∧
      (∀ sp ∈ docSpans d,
        is_potential_header ⟨stripChars sp.text.data⟩ (round1 sp.size) ds = false) ∧
      extract_chapters d = Except.ok [] := by
  have hstats : (fontTables (docSpans d)).1 ≠ [] :=
    foldl_statsStep_ne_nil (docSpans d) ([], []) (Or.inl hne)
  obtain ⟨m, hmax⟩ : ∃ m, maxBySnd (fontTables (docSpans d)).1 = some m := by
    cases hst : (fontTables (docSpans d)).1 with
    | nil => exact absurd hst hstats
    | cons p rest => exact ⟨rest.foldl maxStep p, by rw [maxBySnd]⟩
  have hkeys : ∀ a ∈ ((fontTables (docSpans d)).1).map Prod.fst, a = s0 := by
    intro a ha
    have hmem := (foldl_statsStep_keys (docSpans d) ([], []) a).mp ha
    rcases hmem with h | ⟨sp, hsp, -, hrnd⟩
    · cases h
    · rw [← hrnd]; exact hall sp hsp
  have hmain : m.1 = s0 := by
    obtain ⟨hmem, -⟩ := maxBySnd_spec _ _ hmax
    exact hkeys m.1 (List.mem_map_of_mem Prod.fst hmem)
  have hfilter : (((fontTables (docSpans d)).1.map Prod.fst).filter
      (fun size => decide (m.1 < size) &&
        decide (2 * lookupCount size (fontTables (docSpans d)).1 <
          lookupCount m.1 (fontTables (docSpans d)).1))) = [] := by
    rw [List.filter_eq_nil_iff]
    intro a ha
    have ha0 : a = s0 := hkeys a ha
    subst ha0
    rw [hmain]
    simp
  have hana : analyze_document_structure d =
      Except.ok ⟨m.1, [], (fontTables (docSpans d)).2⟩ := by
    unfold analyze_document_structure
    rw [hmax]
    dsimp only
    rw [hfilter]
    rfl
  have hiph : ∀ sp ∈ docSpans d,
      is_potential_header ⟨stripChars sp.text.data⟩ (round1 sp.size)
        ⟨m.1, [], (fontTables (docSpans d)).2⟩ = false := by
    intro sp _
    unfold is_potential_header
    rw [if_pos (List.not_mem_nil _)]
  refine ⟨⟨m.1, [], (fontTables (docSpans d)).2⟩, hana, rfl, hiph, ?_⟩
  unfold extract_chapters
  rw [hana]
  dsimp only
  rw [foldl_stepSpan_no_header _ _ hiph]
  rfl

theorem single_font_size_graceful_witness :
    ∃ ds, analyze_document_structure monoDoc = Except.ok ds ∧
      ds.header_font_sizes = [] ∧
      (∀ sp ∈ docSpans monoDoc,
        is_potential_header ⟨stripChars sp.text.data⟩ (round1 sp.size) ds = false) ∧
      extract_chapters monoDoc = Except.ok [] :=
  single_font_size_graceful monoDoc 100 (by decide) (by decide)

/-! ## C9: at most one chapter per classified header span -/

theorem closeChapter_length_le (st : ExtState) :
    (closeChapter st).chapters.length ≤
      st.chapters.length + (if st.current_title.isSome then 1 else 0) := by
  rw [closeChapter_chapters]
  by_cases h1 : (titleTruthy st.current_title && !st.current_chapter.isEmpty) = true
  · rw [if_pos h1]
    have hsome : st.current_title.isSome = true := by
      cases ht : st.current_title with
      | none => rw [ht] at h1; simp [titleTruthy] at h1
      | some t => rfl
    by_cases h2 : min_chapter_length <
        (clean_text (String.intercalate "\n" st.current_chapter)).length
    · rw [if_pos h2, List.length_append]
      simp [hsome]
    · rw [if_neg h2]
      simp
  · rw [if_neg h1]
    split <;> omega

theorem stepSpan_measure (ds : DocStructure) (st : ExtState) (sp : Span) (hc : Nat)
    (h : st.chapters.length + (if st.current_title.isSome then 1 else 0) ≤ hc) :
    (stepSpan ds st sp).chapters.length +
      (if (stepSpan ds st sp).current_title.isSome then 1 else 0) ≤
      hc + (if is_potential_header ⟨stripChars sp.text.data⟩ (round1 sp.size) ds
        then 1 else 0) := by
  unfold stepSpan
  by_cases hh : is_potential_header ⟨stripChars sp.text.data⟩ (round1 sp.size) ds = true
  · simp only [hh, if_true]
    have hle := closeChapter_length_le st
    simp only [Option.isSome_some, eq_self_iff_true, if_true]
    omega
  · simp only [hh, Bool.false_eq_true, if_false]
    by_cases ht : titleTruthy st.current_title = true
    · simp only [ht, if_true]
      simpa using h
    · simp only [ht, Bool.false_eq_true, if_false]
      simpa using h

theorem foldl_stepSpan_measure (ds : DocStructure) (l : List Span) :
    ∀ (st : ExtState) (hc : Nat),
      st.chapters.length + (if st.current_title.isSome then 1 else 0) ≤ hc →
      (l.foldl (stepSpan ds) st).chapters.length +
        (if (l.foldl (stepSpan ds) st).current_title.isSome then 1 else 0) ≤
        hc + headerCount ds l := by
  induction l with
  | nil =>
    intro st hc h
    simpa [headerCount] using h
  | cons hd tl ih =>
    intro st hc h
    rw [List.foldl_cons]
    have hstep := stepSpan_measure ds st hd hc h
    have hrest := ih (stepSpan ds st hd)
      (hc + (if is_potential_header ⟨stripChars hd.text.data⟩ (round1 hd.size) ds
        then 1 else 0)) hstep
    by_cases hh : is_potential_header ⟨stripChars hd.text.data⟩ (round1 hd.size) ds = true
    · simp only [headerCount, List.countP_cons, hh] at hrest ⊢
      simp at hrest ⊢
      omega
    · simp only [headerCount, List.countP_cons, hh] at hrest ⊢
      simp [hh] at hrest ⊢
      omega

/-- C9: a successful extraction returns at most as many chapters as there
are spans the walk classifies as headers. -/
theorem chapters_le_headers (d : Doc) (ds : DocStructure) (out : List (String × String))
    (hds : analyze_document_structure d = Except.ok ds)
    (h : extract_chapters d = Except.ok out) :
    out.length ≤ headerCount ds (docSpans d) := by
  obtain ⟨ds', hds', hout⟩ := extract_chapters_ok_structure d out h
  rw [hds] at hds'
  injection hds' with heq
  subst heq
  subst hout
  have hfold := foldl_stepSpan_measure ds (docSpans d) ⟨[], [], none⟩ 0 (by simp)
  have hclose := closeChapter_length_le ((docSpans d).foldl (stepSpan ds) ⟨[], [], none⟩)
  exact le_trans hclose (by simpa using hfold)

theorem chapters_le_headers_witness :
    ([("Chapter 1", exBody)] : List (String × String)).length ≤
      headerCount exDS (docSpans exDoc) :=
  chapters_le_headers exDoc exDS [("Chapter 1", exBody)]
    exDoc_analyze_eval exDoc_extract_eval

/-! ## C3: correctness of the computed font profile -/

/-- C3: for every document with at least one counted span (witnessed by a
successful analysis), `main_font_size` is an observed rounded size of
maximal occurrence count, and `header_font_sizes` holds exactly the
observed sizes strictly above it whose count is below half the main
count, sorted strictly ascending. -/
theorem analyze_document_structure_spec (d : Doc) (ds : DocStructure)
    (hds : analyze_document_structure d = Except.ok ds) :
    observedSize (docSpans d) ds.main_font_size ∧
    (∀ s, observedSize (docSpans d) s →
      specCount (docSpans d) s ≤ specCount (docSpans d) ds.main_font_size) ∧
    (∀ s, s ∈ ds.header_font_sizes ↔
      (observedSize (docSpans d) s ∧ ds.main_font_size < s ∧
        2 * specCount (docSpans d) s < specCount (docSpans d) ds.main_font_size)) ∧
    List.Pairwise (· < ·) ds.header_font_sizes := by
  unfold analyze_document_structure at hds
  cases hmax : maxBySnd (fontTables (docSpans d)).1 with
  | none =>
    rw [hmax] at hds
    exact absurd hds (by simp)
  | some m =>
    rw [hmax] at hds
    injection hds with hds'
    subst hds'
    obtain ⟨hmem, hmaxall⟩ := maxBySnd_spec _ _ hmax
    have hkeys : ∀ a : ℤ, a ∈ ((fontTables (docSpans d)).1).map Prod.fst ↔
        observedSize (docSpans d) a := by
      intro a
      unfold fontTables
      rw [foldl_statsStep_keys (docSpans d) ([], []) a]
      simp [observedSize]
    have hlook : ∀ a : ℤ, lookupCount a (fontTables (docSpans d)).1 =
        specCount (docSpans d) a := by
      intro a
      unfold fontTables
      rw [foldl_statsStep_lookup (docSpans d) ([], []) a]
      simp [lookupCount]
    have hnodup : (((fontTables (docSpans d)).1).map Prod.fst).Nodup :=
      foldl_statsStep_nodup (docSpans d) ([], []) (by simp)
    have hlookm : lookupCount m.1 (fontTables (docSpans d)).1 = m.2 := by
      have : (m.1, m.2) ∈ (fontTables (docSpans d)).1 := hmem
      exact lookupCount_eq_of_mem m.1 m.2 _ hnodup this
    refine ⟨?_, ?_, ?_, ?_⟩
    · exact (hkeys m.1).mp (List.mem_map_of_mem Prod.fst hmem)
    · intro s hs
      have hsk : s ∈ ((fontTables (docSpans d)).1).map Prod.fst := (hkeys s).mpr hs
      have hsmem := mem_of_mem_keys s _ hsk
      have := hmaxall _ hsmem
      rw [← hlook s, ← hlook m.1, hlookm]
      exact this
    · intro s
      have hperm := List.perm_insertionSort (fun a b : ℤ => a ≤ b)
        (((fontTables (docSpans d)).1.map Prod.fst).filter
          (fun size => decide (m.1 < size) &&
            decide (2 * lookupCount size (fontTables (docSpans d)).1 <
              lookupCount m.1 (fontTables (docSpans d)).1)))
      constructor
      · intro hmemhfs
        have hfmem := hperm.mem_iff.mp hmemhfs
        rw [List.mem_filter] at hfmem
        obtain ⟨hk, hp⟩ := hfmem
        rw [Bool.and_eq_true, decide_eq_true_iff, decide_eq_true_iff] at hp
        refine ⟨(hkeys s).mp hk, hp.1, ?_⟩
        rw [← hlook s, ← hlook m.1]
        exact hp.2
      · rintro ⟨hobs, hlt, hcount⟩
        refine hperm.mem_iff.mpr ?_
        rw [List.mem_filter]
        refine ⟨(hkeys s).mpr hobs, ?_⟩
        rw [Bool.and_eq_true, decide_eq_true_iff, decide_eq_true_iff]
        refine ⟨hlt, ?_⟩
        rw [hlook s, hlook m.1]
        exact hcount
    · have hsorted : List.Pairwise (fun a b : ℤ => a ≤ b)
          (sortAsc (((fontTables (docSpans d)).1.map Prod.fst).filter
            (fun size => decide (m.1 < size) &&
              decide (2 * lookupCount size (fontTables (docSpans d)).1 <
                lookupCount m.1 (fontTables (docSpans d)).1)))) :=
        List.sorted_insertionSort _ _
      have hperm := List.perm_insertionSort (fun a b : ℤ => a ≤ b)
        (((fontTables (docSpans d)).1.map Prod.fst).filter
          (fun size => decide (m.1 < size) &&
            decide (2 * lookupCount size (fontTables (docSpans d)).1 <
              lookupCount m.1 (fontTables (docSpans d)).1)))
      have hnd : (sortAsc (((fontTables (docSpans d)).1.map Prod.fst).filter
          (fun size => decide (m.1 < size) &&
            decide (2 * lookupCount size (fontTables (docSpans d)).1 <
              lookupCount m.1 (fontTables (docSpans d)).1)))).Nodup :=
        hperm.nodup_iff.mpr (List.Nodup.filter _ hnodup)
      exact (hsorted.and hnd).imp (fun hab => lt_of_le_of_ne hab.1 hab.2)

theorem analyze_document_structure_spec_witness :
    observedSize (docSpans exDoc) exDS.main_font_size ∧
    (∀ s, observedSize (docSpans exDoc) s →
      specCount (docSpans exDoc) s ≤ specCount (docSpans exDoc) exDS.main_font_size) ∧
    (∀ s, s ∈ exDS.header_font_sizes ↔
      (observedSize (docSpans exDoc) s ∧ exDS.main_font_size < s ∧
        2 * specCount (docSpans exDoc) s < specCount (docSpans exDoc) exDS.main_font_size)) ∧
    List.Pairwise (· < ·) exDS.header_font_sizes :=
  analyze_document_structure_spec exDoc exDS exDoc_analyze_eval

/-! ## C10: whitespace-only spans never influence the profile -/

theorem flatMap_filter_id (lines : List (List Span)) :
    ((lines.map (fun l => l.filter counted)).flatMap (fun l => l)) =
      (lines.flatMap (fun l => l)).filter counted := by
  induction lines with
  | nil => rfl
  | cons hd tl ih =>
    simp only [List.map_cons, List.flatMap_cons, List.filter_append]
    rw [ih]

theorem blockSpans_filterBlock (b : Block) :
    blockSpans (filterBlock b) = (blockSpans b).filter counted := by
  cases b with
  | noLines => rfl
  | withLines lines => exact flatMap_filter_id lines

theorem pageSpans_filter (page : Page) :
    pageSpans (page.map filterBlock) = (pageSpans page).filter counted := by
  induction page with
  | nil => rfl
  | cons b bs ih =>
    simp only [pageSpans, List.map_cons, List.flatMap_cons, List.filter_append] at ih ⊢
    rw [ih, blockSpans_filterBlock]

theorem docSpans_filterDoc (d : Doc) :
    docSpans (filterDoc d) = (docSpans d).filter counted := by
  induction d with
  | nil => rfl
  | cons page rest ih =>
    simp only [docSpans, filterDoc, List.map_cons, List.flatMap_cons,
      List.filter_append] at ih ⊢
    rw [ih, pageSpans_filter]

theorem foldl_statsStep_filter (l : List Span) :
    ∀ st, (l.filter counted).foldl statsStep st = l.foldl statsStep st := by
  induction l with
  | nil => intro st; rfl
  | cons hd tl ih =>
    intro st
    by_cases hc : counted hd = true
    · rw [List.filter_cons_of_pos hc, List.foldl_cons, List.foldl_cons]
      exact ih _
    · rw [List.filter_cons_of_neg (by simpa using hc), List.foldl_cons]
      have hstep : statsStep st hd = st := by
        have he : (stripChars hd.text.data).isEmpty = true := by
          simpa [counted] using hc
        simp [statsStep, he]
      rw [hstep]
      exact ih st

theorem bumpSample_bound (k : ℤ) (t : String) (m : List (ℤ × List String))
    (h : ∀ p ∈ m, p.2.length ≤ 5) :
    ∀ p ∈ bumpSample k t m, p.2.length ≤ 5 := by
  induction m with
  | nil =>
    intro p hp
    rw [bumpSample] at hp
    rcases List.mem_singleton.mp hp with rfl
    simp
  | cons hd tl ih =>
    obtain ⟨k', ts⟩ := hd
    intro p hp
    by_cases hk : k = k'
    · rw [bumpSample, if_pos hk] at hp
      rcases List.mem_cons.mp hp with heq | htl
      · subst heq
        by_cases hlen : ts.length < 5
        · have := h (k', ts) (List.mem_cons_self _ _)
          simp only [if_pos hlen, List.length_append, List.length_singleton]
          omega
        · simp only [if_neg hlen]
          exact h (k', ts) (List.mem_cons_self _ _)
      · exact h p (List.mem_cons_of_mem _ htl)
    · rw [bumpSample, if_neg hk] at hp
      rcases List.mem_cons.mp hp with heq | htl
      · subst heq
        exact h _ (List.mem_cons_self _ _)
      · exact ih (fun q hq => h q (List.mem_cons_of_mem _ hq)) p htl

theorem foldl_statsStep_samples (l : List Span) :
    ∀ st, (∀ p ∈ st.2, p.2.length ≤ 5) →
      ∀ p ∈ (l.foldl statsStep st).2, p.2.length ≤ 5 := by
  induction l with
  | nil => intro st h; exact h
  | cons hd tl ih =>
    intro st h
    rw [List.foldl_cons]
    refine ih (statsStep st hd) ?_
    unfold statsStep
    by_cases hc : (stripChars hd.text.data).isEmpty = true
    · rw [if_pos hc]; exact h
    · rw [if_neg hc]
      exact bumpSample_bound _ _ _ h

/-- C10: spans whose text strips to empty are excluded from the font
histogram and the samples — removing them changes nothing — and at most
5 sample texts are recorded per observed size. -/
theorem analyze_ignores_whitespace_spans (d : Doc) :
    analyze_document_structure d = analyze_document_structure (filterDoc d) ∧
    ∀ p ∈ (fontTables (docSpans d)).2, p.2.length ≤ 5 := by
  constructor
  · have htab : fontTables (docSpans (filterDoc d)) = fontTables (docSpans d) := by
      rw [docSpans_filterDoc]
      unfold fontTables
      exact foldl_statsStep_filter (docSpans d) ([], [])
    unfold analyze_document_structure
    rw [htab]
  · exact foldl_statsStep_samples (docSpans d) ([], []) (by simp)

theorem analyze_ignores_whitespace_spans_witness :
    analyze_document_structure wsDoc = analyze_document_structure (filterDoc wsDoc) ∧
    (((100 : ℤ), ["x"]) : ℤ × List String).2.length ≤ 5 :=
  ⟨(analyze_ignores_whitespace_spans wsDoc).1,
   (analyze_ignores_whitespace_spans wsDoc).2 (100, ["x"]) (by decide)⟩

/-! ## C2: idempotence of `clean_text` -/

theorem dropWhile_eq_self_of_all (p : Char → Bool) (s : List Char)
    (h : ∀ c ∈ s, p c = false) : s.dropWhile p = s := by
  cases s with
  | nil => rfl
  | cons c cs => simp [List.dropWhile_cons, h c (List.mem_cons_self _ _)]

theorem stripChars_eq_self (s : List Char)
    (h : ∀ c ∈ s, isPySpace c = false) : stripChars s = s := by
  unfold stripChars
  rw [dropWhile_eq_self_of_all _ _ h,
    dropWhile_eq_self_of_all _ _ (fun c hc => h c (List.mem_reverse.mp hc)),
    List.reverse_reverse]

theorem splitNlAux_no_nl (s : List Char) :
    ∀ acc, ('\n' ∉ s) → splitNlAux s acc = [acc.reverse ++ s] := by
  induction s with
  | nil => intro acc _; simp [splitNlAux]
  | cons c cs ih =>
    intro acc h
    have hc : c ≠ '\n' := fun he => h (he ▸ List.mem_cons_self _ _)
    rw [splitNlAux, if_neg hc, ih (c :: acc) (fun hm => h (List.mem_cons_of_mem _ hm))]
    simp

theorem splitNl_no_nl (s : List Char) (h : '\n' ∉ s) : splitNl s = [s] := by
  unfold splitNl
  rw [splitNlAux_no_nl s [] h]
  rfl

theorem mem_of_prefixOf (pat : List Char) :
    ∀ s, prefixOf pat s = true → ∀ c ∈ pat, c ∈ s := by
  induction pat with
  | nil => intro s _ c hc; cases hc
  | cons a as ih =>
    intro s hp c hc
    cases s with
    | nil => cases hp
    | cons b bs =>
      rw [prefixOf, Bool.and_eq_true] at hp
      obtain ⟨hab, hrest⟩ := hp
      have hab' : a = b := by simpa using hab
      rcases List.mem_cons.mp hc with heq | hc'
      · subst heq
        rw [hab']
        exact List.mem_cons_self _ _
      · exact List.mem_cons_of_mem _ (ih bs hrest c hc')

theorem mem_of_containsSub (pat : List Char) (hne : pat ≠ []) :
    ∀ s, containsSub pat s = true → ∀ c ∈ pat, c ∈ s := by
  intro s
  induction s with
  | nil =>
    intro h c hc
    cases pat with
    | nil => exact absurd rfl hne
    | cons a as => cases h
  | cons b bs ih =>
    intro h c hc
    rw [containsSub, Bool.or_eq_true] at h
    rcases h with h | h
    · exact mem_of_prefixOf pat _ h c hc
    · exact List.mem_cons_of_mem _ (ih h c hc)

theorem containsSub_eq_false (pat s : List Char) (c : Char) (hc : c ∈ pat)
    (hs : c ∉ s) : containsSub pat s = false := by
  by_contra hcon
  rw [Bool.not_eq_false] at hcon
  exact hs (mem_of_containsSub pat (fun h => by rw [h] at hc; cases hc) s hcon c hc)

theorem pyLower_plain (c : Char) (h1 : 'a' ≤ c) (h2 : c ≤ 'z') : pyLower c = c := by
  unfold pyLower
  have hz : ¬ (c ≤ 'Z') := fun hc => absurd (le_trans h1 hc) (by decide)
  have hcy : ¬ ('А' ≤ c) := fun hc => absurd (le_trans hc h2) (by decide)
  have hyo : c ≠ 'Ё' := fun he => absurd h2 (by rw [he]; decide)
  rw [if_neg (by simp [Bool.and_eq_true]; intro _; exact not_le.mp hz),
    if_neg (by simp [Bool.and_eq_true]; intro hcy'; exact absurd hcy' hcy),
    if_neg hyo]

theorem plain_bounds (c : Char) (h : plainChar c = true) : 'a' ≤ c ∧ c ≤ 'z' := by
  unfold plainChar at h
  rw [Bool.and_eq_true, Bool.and_eq_true] at h
  exact ⟨by simpa using h.1.1, by simpa using h.1.2⟩

theorem plain_not_space (c : Char) (h : plainChar c = true) : isPySpace c = false := by
  have h1 := (plain_bounds c h).1
  have hne : ∀ d : Char, ¬ ('a' ≤ d) → c ≠ d := fun d hd he => hd (he ▸ h1)
  simp [isPySpace, hne ' ' (by decide), hne '\t' (by decide), hne '\n' (by decide),
    hne '\r' (by decide), hne '\x0b' (by decide), hne '\x0c' (by decide)]

theorem subAllF_id_of_lit (c : Char) (res : List RE) (repl : List Char) :
    ∀ (fuel : Nat) (s : List Char), (∀ x ∈ s, x ≠ c) →
      subAllF (RE.lit c :: res) repl fuel s = s := by
  intro fuel
  induction fuel with
  | zero =>
    intro s h
    cases s <;> rfl
  | succ f ih =>
    intro s h
    cases s with
    | nil => rfl
    | cons x xs =>
      have hm : matchSeq (RE.lit c :: res) (x :: xs) = none := by
        unfold matchSeq
        simp [matchSeqF, h x (List.mem_cons_self _ _)]
      rw [subAllF, hm, ih xs (fun y hy => h y (List.mem_cons_of_mem _ hy))]

theorem subAll_id_of_lit (c : Char) (res : List RE) (repl s : List Char)
    (h : ∀ x ∈ s, x ≠ c) : subAll (RE.lit c :: res) repl s = s :=
  subAllF_id_of_lit c res repl s.length s h

theorem foldl_subAll_id (pats : List (List RE)) (s : List Char)
    (h : ∀ pat ∈ pats, ∃ c res, pat = RE.lit c :: res ∧ ∀ x ∈ s, x ≠ c) :
    pats.foldl (fun t pat => subAll pat [] t) s = s := by
  induction pats with
  | nil => rfl
  | cons p ps ih =>
    rw [List.foldl_cons]
    obtain ⟨c, res, hp, hc⟩ := h p (List.mem_cons_self _ _)
    rw [hp, subAll_id_of_lit c res [] s hc]
    exact ih (fun pat hpat => h pat (List.mem_cons_of_mem _ hpat))

theorem intercalate_single (sep : List Char) (x : List Char) :
    List.intercalate sep [x] = x := by
  simp [List.intercalate]

/-- On a string of plain characters `clean_text` changes nothing: no line
contains a skip marker, no noise pattern can start, and there is no
whitespace to strip. -/
theorem cleanTextL_plain (t : List Char) (h : ∀ c ∈ t, plainChar c = true) :
    cleanTextL t = t := by
  have hnospace : ∀ c ∈ t, isPySpace c = false :=
    fun c hc => plain_not_space c (h c hc)
  have hnotin : ∀ γ : Char, plainChar γ = false → γ ∉ t := by
    intro γ hγ hm
    have := h γ hm
    rw [hγ] at this
    cases this
  have hne : ∀ γ : Char, plainChar γ = false → ∀ x ∈ t, x ≠ γ :=
    fun γ hγ x hx he => hnotin γ hγ (he ▸ hx)
  have hsplit : splitNl t = [t] := splitNl_no_nl t (hnotin '\n' (by decide))
  have hmaplow : t.map pyLower = t := by
    have : ∀ c ∈ t, pyLower c = c := fun c hc =>
      pyLower_plain c (plain_bounds c (h c hc)).1 (plain_bounds c (h c hc)).2
    rw [List.map_congr_left this, List.map_id']
  have hanymarker : skip_sections.any (fun sec => containsSub sec (stripChars (t.map pyLower))) = false := by
    rw [hmaplow, stripChars_eq_self t hnospace]
    have f1 := containsSub_eq_false "предисловие".data t 'п' (by decide) (hnotin 'п' (by decide))
    have f2 := containsSub_eq_false "благодарности".data t 'б' (by decide) (hnotin 'б' (by decide))
    have f3 := containsSub_eq_false "об авторе".data t 'о' (by decide) (hnotin 'о' (by decide))
    have f4 := containsSub_eq_false "содержание".data t 'с' (by decide) (hnotin 'с' (by decide))
    have f5 := containsSub_eq_false "оглавление".data t 'о' (by decide) (hnotin 'о' (by decide))
    have f6 := containsSub_eq_false "список литературы".data t 'с' (by decide) (hnotin 'с' (by decide))
    have f7 := containsSub_eq_false "приложение".data t 'п' (by decide) (hnotin 'п' (by decide))
    have f8 := containsSub_eq_false "примечания".data t 'п' (by decide) (hnotin 'п' (by decide))
    have f9 := containsSub_eq_false "copyright".data t 'y' (by decide) (hnotin 'y' (by decide))
    have f10 := containsSub_eq_false "выходные данные".data t 'в' (by decide) (hnotin 'в' (by decide))
    have f11 := containsSub_eq_false "isbn".data t 'b' (by decide) (hnotin 'b' (by decide))
    simp [skip_sections, f1, f2, f3, f4, f5, f6, f7, f8, f9, f10, f11]
  have hskip : skipFilter [t] false = [t] := by
    rw [skipFilter]
    dsimp only
    rw [hanymarker]
    rfl
  have hpats : ∀ pat ∈ technical_patterns,
      ∃ c res, pat = RE.lit c :: res ∧ ∀ x ∈ t, x ≠ c := by
    intro pat hpat
    simp only [technical_patterns, List.mem_cons, List.not_mem_nil, or_false] at hpat
    rcases hpat with rfl | rfl | rfl | rfl | rfl | rfl | rfl | rfl | rfl | rfl
    · exact ⟨'©', _, rfl, hne '©' (by decide)⟩
    · exact ⟨'I', _, rfl, hne 'I' (by decide)⟩
    · exact ⟨'И', _, rfl, hne 'И' (by decide)⟩
    · exact ⟨'w', _, rfl, hne 'w' (by decide)⟩
    · exact ⟨'[', _, rfl, hne '[' (by decide)⟩
    · exact ⟨'(', _, rfl, hne '(' (by decide)⟩
    · exact ⟨'В', _, rfl, hne 'В' (by decide)⟩
    · exact ⟨'П', _, rfl, hne 'П' (by decide)⟩
    · exact ⟨'Ф', _, rfl, hne 'Ф' (by decide)⟩
    · exact ⟨'Т', _, rfl, hne 'Т' (by decide)⟩
  have hnlb : subAll reNlBlank ['\n', '\n'] t = t :=
    subAll_id_of_lit '\n' _ _ t (hne '\n' (by decide))
  have hpn : subAll rePageNum ['\n'] t = t :=
    subAll_id_of_lit '\n' _ _ t (hne '\n' (by decide))
  unfold cleanTextL
  dsimp only
  rw [hsplit, hskip, intercalate_single, foldl_subAll_id _ _ hpats, hnlb, hpn,
    stripChars_eq_self t hnospace]

/-- C2 counterexample: `clean_text` is not idempotent.  On
`"a\n1\n2\nb"` one pass removes only the first of the two adjacent
page-number lines; a second pass removes the other. -/
theorem clean_text_not_idempotent :
    clean_text (clean_text "a\n1\n2\nb") ≠ clean_text "a\n1\n2\nb" := by
  decide

/-- C2 (amended): cleaning is idempotent on noise-free text — any string
of plain lowercase letters (no skip markers, no pattern heads, no digits,
no whitespace) is a fixed point — but not on all strings, because stacked
page-number lines are removed one per pass. -/
theorem clean_text_idempotent_on_plain (s : String)
    (h : ∀ c ∈ s.data, plainChar c = true) :
    clean_text s = s ∧ clean_text (clean_text s) = clean_text s := by
  have hfix : clean_text s = s := by
    unfold clean_text
    rw [cleanTextL_plain s.data h]
  exact ⟨hfix, by rw [hfix]; exact hfix⟩

theorem clean_text_idempotent_on_plain_witness :
    clean_text "hello" = "hello" ∧
    clean_text (clean_text "hello") = clean_text "hello" :=
  clean_text_idempotent_on_plain "hello" (by decide)

/-! ## C8: where chapter titles come from -/

/-- `t` is the stripped text of some header-classified span of `l`. -/
def TitleFrom (ds : DocStructure) (l : List Span) (t : String) : Prop :=
  ∃ sp ∈ l, is_potential_header ⟨stripChars sp.text.data⟩ (round1 sp.size) ds = true ∧
    t = ⟨stripChars sp.text.data⟩

theorem closeChapter_titles (ds : DocStructure) (l : List Span) (st : ExtState)
    (h1 : ∀ p ∈ st.chapters, TitleFrom ds l p.1)
    (h2 : ∀ t, st.current_title = some t → TitleFrom ds l t) :
    ∀ p ∈ (closeChapter st).chapters, TitleFrom ds l p.1 := by
  intro p hp
  rw [closeChapter_chapters st] at hp
  by_cases hc1 : (titleTruthy st.current_title && !st.current_chapter.isEmpty) = true
  · rw [if_pos hc1] at hp
    by_cases hc2 : min_chapter_length <
        (clean_text (String.intercalate "\n" st.current_chapter)).length
    · rw [if_pos hc2] at hp
      rcases List.mem_append.mp hp with hm | hm
      · exact h1 p hm
      · rw [List.mem_singleton] at hm
        subst hm
        cases ht : st.current_title with
        | none =>
          rw [Bool.and_eq_true] at hc1
          rw [ht] at hc1
          simp [titleTruthy] at hc1
        | some t0 =>
          have := h2 t0 ht
          simpa [ht] using this
    · rw [if_neg hc2] at hp
      exact h1 p hp
  · rw [if_neg hc1] at hp
    exact h1 p hp

theorem stepSpan_titles (ds : DocStructure) (l : List Span) (st : ExtState)
    (sp : Span) (hsp : sp ∈ l)
    (h1 : ∀ p ∈ st.chapters, TitleFrom ds l p.1)
    (h2 : ∀ t, st.current_title = some t → TitleFrom ds l t) :
    (∀ p ∈ (stepSpan ds st sp).chapters, TitleFrom ds l p.1) ∧
    (∀ t, (stepSpan ds st sp).current_title = some t → TitleFrom ds l t) := by
  unfold stepSpan
  by_cases hh : is_potential_header ⟨stripChars sp.text.data⟩ (round1 sp.size) ds = true
  · simp only [hh, if_true]
    constructor
    · intro p hp
      exact closeChapter_titles ds l st h1 h2 p hp
    · intro t ht
      injection ht with ht'
      exact ⟨sp, hsp, hh, ht'.symm⟩
  · simp only [hh, Bool.false_eq_true, if_false]
    by_cases htr : titleTruthy st.current_title = true
    · simp only [htr, if_true]
      exact ⟨h1, h2⟩
    · simp only [htr, Bool.false_eq_true, if_false]
      exact ⟨h1, h2⟩

theorem foldl_stepSpan_titles (ds : DocStructure) (walk : List Span) :
    ∀ (st : ExtState) (l : List Span),
      (∀ sp ∈ walk, sp ∈ l) →
      (∀ p ∈ st.chapters, TitleFrom ds l p.1) →
      (∀ t, st.current_title = some t → TitleFrom ds l t) →
      (∀ p ∈ (walk.foldl (stepSpan ds) st).chapters, TitleFrom ds l p.1) ∧
      (∀ t, (walk.foldl (stepSpan ds) st).current_title = some t → TitleFrom ds l t) := by
  induction walk with
  | nil =>
    intro st l _ h1 h2
    exact ⟨h1, h2⟩
  | cons hd tl ih =>
    intro st l hsub h1 h2
    rw [List.foldl_cons]
    obtain ⟨g1, g2⟩ := stepSpan_titles ds l st hd (hsub hd (List.mem_cons_self _ _)) h1 h2
    exact ih (stepSpan ds st hd) l (fun sp hsp => hsub sp (List.mem_cons_of_mem _ hsp)) g1 g2

/-- C8 counterexample: on `exDoc` every span the classifier accepts has
text `" Chapter 1 "`, yet the emitted chapter's title is the stripped
`"Chapter 1"`, so the title is not the heading span's text unchanged. -/
theorem title_not_verbatim :
    extract_chapters exDoc = Except.ok [("Chapter 1", exBody)] ∧
    (∀ sp ∈ docSpans exDoc,
      is_potential_header ⟨stripChars sp.text.data⟩ (round1 sp.size) exDS = true →
        sp.text = " Chapter 1 ") ∧
    ("Chapter 1" : String) ≠ " Chapter 1 " :=
  ⟨exDoc_extract_eval, by decide, by decide⟩

/-- C8 (amended): every returned chapter's title is the classified
heading span's text after stripping surrounding whitespace — the walk
strips span text before classification and title assignment. -/
theorem title_from_stripped_header_span (d : Doc) (ds : DocStructure)
    (out : List (String × String))
    (hds : analyze_document_structure d = Except.ok ds)
    (h : extract_chapters d = Except.ok out) :
    ∀ p ∈ out, ∃ sp ∈ docSpans d,
      is_potential_header ⟨stripChars sp.text.data⟩ (round1 sp.size) ds = true ∧
      p.1 = ⟨stripChars sp.text.data⟩ := by
  obtain ⟨ds', hds', hout⟩ := extract_chapters_ok_structure d out h
  rw [hds] at hds'
  injection hds' with heq
  subst heq
  subst hout
  intro p hp
  obtain ⟨g1, g2⟩ := foldl_stepSpan_titles ds (docSpans d) ⟨[], [], none⟩ (docSpans d)
    (fun sp hsp => hsp) (by intro q hq; cases hq) (by intro t ht; cases ht)
  exact closeChapter_titles ds (docSpans d) _ g1 g2 p hp

theorem title_from_stripped_header_span_witness :
    ∃ sp ∈ docSpans exDoc,
      is_potential_header ⟨stripChars sp.text.data⟩ (round1 sp.size) exDS = true ∧
      ("Chapter 1" : String) = ⟨stripChars sp.text.data⟩ :=
  title_from_stripped_header_span exDoc exDS [("Chapter 1", exBody)]
    exDoc_analyze_eval exDoc_extract_eval ("Chapter 1", exBody)
    (List.mem_singleton.mpr rfl)

end KitapAi
